import Mathlib

/-!
Verification of the unicode-truncate library (`src/lib.rs`).

The library is parameterized over two external capabilities: a segmenter
(`unicode_segmentation`, producing grapheme clusters with their byte offsets)
and a width oracle (`unicode_width`, giving the display width of each cluster).
We embed a string as the list of its grapheme clusters, each carrying its
UTF-8 bytes and its oracle-assigned display width.  The truncation and padding
functions are translated from `src/lib.rs` line by line over this embedding:
byte indices are recovered from cumulative byte lengths exactly as
`grapheme_indices` yields them, and the returned `&str` slices are byte lists.
-/

set_option maxRecDepth 10000

/-- One atomic unit produced by the segmenter: a grapheme cluster, carrying
its UTF-8 bytes and the display width the width oracle assigns to it. -/
structure Grapheme where
  bytes : List Nat
  width : Nat
deriving DecidableEq, Repr

/-- A string, as the segmenter presents it to the engine: the ordered list of
its grapheme clusters. -/
abbrev Str := List Grapheme

/-- The UTF-8 bytes of the whole string (concatenation of all clusters). -/
def strBytes (s : Str) : List Nat := (s.map Grapheme.bytes).flatten

/-- Byte length of the string, `str::len`. -/
def byteLen (s : Str) : Nat := (s.map (fun g => g.bytes.length)).sum

/-- Display width of the whole string, `UnicodeWidthStr::width`: the sum of
the widths of its units. -/
def strWidth (s : Str) : Nat := (s.map Grapheme.width).sum

/-- `grapheme_indices(true)` starting from byte offset `off`: each cluster
paired with its byte offset. -/
def graphemeIndicesFrom (off : Nat) : Str → List (Nat × Grapheme)
  | [] => []
  | g :: gs => (off, g) :: graphemeIndicesFrom (off + g.bytes.length) gs

/-- `self.grapheme_indices(true)`. -/
def grapheme_indices (s : Str) : List (Nat × Grapheme) := graphemeIndicesFrom 0 s

/-- `(byte_index, grapheme)` mapped to `(byte_index, grapheme.width())`. -/
def mapWidths (l : List (Nat × Grapheme)) : List (Nat × Nat) :=
  l.map (fun p => (p.1, p.2.width))

/-- `usize::checked_add`.  A Lean `Nat` cannot overflow, and for any
realizable Rust string every accumulated width fits in `usize`, so the
operation is modelled as total; the `Option` shape of the source is kept. -/
def checked_add (a b : Nat) : Option Nat := some (a + b)

/-- `usize::checked_sub`: `none` exactly when the subtraction would
underflow. -/
def checked_sub (a b : Nat) : Option Nat := if b ≤ a then some (a - b) else none

/-- The `scan` of `unicode_truncate`: emits, for each `(byte_index, width)`
element, the byte index paired with the accumulated width of everything
strictly before it; stops if `checked_add` fails. -/
def scanWidthBefore (sum : Nat) : List (Nat × Nat) → List (Nat × Nat)
  | [] => []
  | (byte_index, grapheme_width) :: rest =>
    match checked_add sum grapheme_width with
    | none => []
    | some sum2 => (byte_index, sum) :: scanWidthBefore sum2 rest

/-- The `scan` of `unicode_truncate_start` (also the `from_end` scan of
`unicode_truncate_centered`): emits the byte index paired with the
accumulated width including the current element. -/
def scanWidthIncluding (sum : Nat) : List (Nat × Nat) → List (Nat × Nat)
  | [] => []
  | (byte_index, grapheme_width) :: rest =>
    match checked_add sum grapheme_width with
    | none => []
    | some sum2 => (byte_index, sum2) :: scanWidthIncluding sum2 rest

/-- The `from_start` scan of `unicode_truncate_centered`: state is
`(sum, prev_width)`; emits the byte index paired with the width removed when
cutting the start strictly before that index. -/
def scanCenteredStart (st : Nat × Nat) : List (Nat × Nat) → List (Nat × Nat)
  | [] => []
  | (byte_index, grapheme_width) :: rest =>
    match checked_add st.1 st.2 with
    | none => []
    | some sum2 => (byte_index, sum2) :: scanCenteredStart (sum2, grapheme_width) rest

/-- The mapped, chained and scanned iterator of `unicode_truncate`. -/
def endScanList (s : Str) : List (Nat × Nat) :=
  scanWidthBefore 0 (mapWidths (grapheme_indices s) ++ [(byteLen s, 0)])

/-- The `(byte_index, new_width)` pair computed by `unicode_truncate`. -/
def truncEndIx (s : Str) (max_width : Nat) : Nat × Nat :=
  (((endScanList s).takeWhile (fun p => p.2 ≤ max_width)).getLast?).getD (0, 0)

/-- `str::unicode_truncate` (truncate from the end), returning the byte slice
and its display width. -/
def unicode_truncate (s : Str) (max_width : Nat) : List Nat × Nat :=
  ((strBytes s).take (truncEndIx s max_width).1, (truncEndIx s max_width).2)

/-- The `(byte_index, new_width)` pair computed by `unicode_truncate_start`. -/
def truncStartIx (s : Str) (max_width : Nat) : Nat × Nat :=
  (((scanWidthIncluding 0 (mapWidths (grapheme_indices s)).reverse).takeWhile
      (fun p => p.2 ≤ max_width)).getLast?).getD (byteLen s, 0)

/-- `str::unicode_truncate_start` (truncate from the start). -/
def unicode_truncate_start (s : Str) (max_width : Nat) : List Nat × Nat :=
  ((strBytes s).drop (truncStartIx s max_width).1, (truncStartIx s max_width).2)

/-- The comparison closure passed to `merge_join_by` in
`unicode_truncate_centered`: take from the left (start) side exactly when it
has removed strictly less width. -/
def centeredMergePred (a b : Nat × Nat) : Bool := a.2 < b.2

/-- `itertools::merge_join_by` with a boolean comparison: at each step the
head of the left iterator is emitted when the closure returns `true`,
otherwise the head of the right iterator; an exhausted side yields the rest
of the other.  Structured as: emit right elements while the closure says the
right head goes first, then emit the left head and continue. -/
def mergeJoinBy (p : Nat × Nat → Nat × Nat → Bool) :
    List (Nat × Nat) → List (Nat × Nat) → List (Sum (Nat × Nat) (Nat × Nat))
  | [], r => r.map Sum.inr
  | a :: l, r =>
      (r.takeWhile (fun b => !(p a b))).map Sum.inr
        ++ Sum.inl a :: mergeJoinBy p l (r.dropWhile (fun b => !(p a b)))

/-- The `scan` over the merged sequence in `unicode_truncate_centered`:
state is `(start_removed, end_removed, start_index, end_index)`; each step
records the side just advanced and emits
`(start_index, end_index, total_removed)`.  The `checked_add(...).unwrap()`
computing the total is total here (see `checked_add`). -/
def centeredMergeScan :
    Nat × Nat × Nat × Nat → List (Sum (Nat × Nat) (Nat × Nat)) → List (Nat × Nat × Nat)
  | _, [] => []
  | (_, er, _, ei), Sum.inl (idx, removed) :: rest =>
      (idx, ei, removed + er) :: centeredMergeScan (removed, er, idx, ei) rest
  | (sr, _, si, _), Sum.inr (idx, removed) :: rest =>
      (si, idx, sr + removed) :: centeredMergeScan (sr, removed, si, idx) rest

/-- `str::get(start..end)`: `none` whenever the range is invalid (the byte
indices used always sit on cluster boundaries, so only the ordering and the
upper bound are checked). -/
def strGetRange (bytes : List Nat) (a b : Nat) : Option (List Nat) :=
  if a ≤ b ∧ b ≤ bytes.length then some ((bytes.drop a).take (b - a)) else none

/-- `str::unicode_truncate_centered`.  Returns `none` exactly when the Rust
code would panic: `self.get(start_index..end_index).unwrap()` on an invalid
range, or `original_width.checked_sub(removed_width).unwrap()` underflowing. -/
def unicode_truncate_centered (s : Str) (max_width : Nat) :
    Option (List Nat × Nat) :=
  if max_width = 0 then some ([], 0) else
  let original_width := strWidth s
  if original_width ≤ max_width then some (strBytes s, original_width) else
  let min_removal_width := original_width - max_width
  let less_than_half := (min_removal_width - 10) / 2
  let from_start :=
    (scanCenteredStart (0, 0) (mapWidths (grapheme_indices s))).dropWhile
      (fun p => p.2 < less_than_half)
  let from_end :=
    (scanWidthIncluding 0 (mapWidths (grapheme_indices s)).reverse).dropWhile
      (fun p => p.2 < less_than_half)
  let found :=
    ((centeredMergeScan (0, 0, 0, 0) (mergeJoinBy centeredMergePred from_start from_end)).find?
        (fun t => min_removal_width ≤ t.2.2)).getD (0, 0, original_width)
  match strGetRange (strBytes s) found.1 found.2.1,
      checked_sub original_width found.2.2 with
  | some result, some result_width => some (result, result_width)
  | _, _ => none

/-- The `Alignment'` enum. -/
inductive Alignment' where
  | Left
  | Center
  | Right
deriving DecidableEq, Repr

/-- `str::unicode_truncate_aligned`: dispatch on the alignment.  `Option`
because the `Center` case can panic (see `unicode_truncate_centered`). -/
def unicode_truncate_aligned (s : Str) (max_width : Nat) (align : Alignment') :
    Option (List Nat × Nat) :=
  match align with
  | Alignment'.Left => some (unicode_truncate s max_width)
  | Alignment'.Center => unicode_truncate_centered s max_width
  | Alignment'.Right => some (unicode_truncate_start s max_width)

/-- The `(left_pad, right_pad)` split of `unicode_pad` for a width deficit
`diff`. -/
def padSplit (align : Alignment') (diff : Nat) : Nat × Nat :=
  match align with
  | Alignment'.Left => (0, diff)
  | Alignment'.Right => (diff, 0)
  | Alignment'.Center => (diff / 2, diff - diff / 2)

/-- `str::unicode_pad`, returning the bytes of the resulting string
(a space is byte 32). -/
def unicode_pad (s : Str) (target_width : Nat) (align : Alignment')
    (truncate : Bool) : List Nat :=
  if truncate = false ∧ target_width ≤ strWidth s then strBytes s else
  let truncated := (unicode_truncate s target_width).1
  let columns := (unicode_truncate s target_width).2
  if columns = target_width then truncated else
  let diff := target_width - columns
  let lr := padSplit align diff
  List.replicate lr.1 32 ++ truncated ++ List.replicate lr.2 32

/-! ### Concrete inputs used in the theorems below -/

def aG : Grapheme := ⟨[97], 1⟩
def bG : Grapheme := ⟨[98], 1⟩
def cG : Grapheme := ⟨[99], 1⟩
def dG : Grapheme := ⟨[100], 1⟩
/-- cluster for U+4F60 (width 2) -/
def niG : Grapheme := ⟨[228, 189, 160], 2⟩
/-- cluster for U+597D (width 2) -/
def haoG : Grapheme := ⟨[229, 165, 189], 2⟩
/-- cluster for U+5417 (width 2) -/
def maG : Grapheme := ⟨[229, 144, 151], 2⟩
/-- cluster for the letter y followed by U+0306 (width 1) -/
def yBreveG : Grapheme := ⟨[121, 204, 134], 1⟩
def eG : Grapheme := ⟨[101], 1⟩
def sG : Grapheme := ⟨[115], 1⟩
/-- zero-width cluster: U+200B zero width space -/
def zwG : Grapheme := ⟨[226, 128, 139], 0⟩
/-- a four-person family emoji ZWJ sequence: 25 bytes, width 8 -/
def famG : Grapheme := ⟨List.replicate 25 240, 8⟩
/-- cluster for the letter a followed by U+0306 (width 1) -/
def aBreveG : Grapheme := ⟨[97, 204, 134], 1⟩
/-- cluster for the letter b followed by U+0306 (width 1) -/
def bBreveG : Grapheme := ⟨[98, 204, 134], 1⟩

/-- a string of ASCII bytes, one cluster of width 1 per byte -/
def asciiStr (l : List Nat) : Str := l.map (fun b => ⟨[b], 1⟩)

def niHaoMa : Str := [niG, haoG, maG]

def famStr : Str := [⟨[49],1⟩, ⟨[50],1⟩, ⟨[51],1⟩, famG, ⟨[52],1⟩, ⟨[53],1⟩, ⟨[54],1⟩]

/-! ### Basic lemmas about the embedding -/

@[simp]
theorem strBytes_nil : strBytes [] = [] := rfl

@[simp]
theorem strBytes_cons (g : Grapheme) (s : Str) :
    strBytes (g :: s) = g.bytes ++ strBytes s := rfl

@[simp]
theorem byteLen_nil : byteLen [] = 0 := rfl

@[simp]
theorem byteLen_cons (g : Grapheme) (s : Str) :
    byteLen (g :: s) = g.bytes.length + byteLen s := by
  simp [byteLen]

@[simp]
theorem strWidth_nil : strWidth [] = 0 := rfl

@[simp]
theorem strWidth_cons (g : Grapheme) (s : Str) :
    strWidth (g :: s) = g.width + strWidth s := by
  simp [strWidth]

theorem strBytes_append (s t : Str) :
    strBytes (s ++ t) = strBytes s ++ strBytes t := by
  simp [strBytes]

theorem strWidth_append (s t : Str) :
    strWidth (s ++ t) = strWidth s + strWidth t := by
  simp [strWidth]

theorem length_strBytes (s : Str) : (strBytes s).length = byteLen s := by
  simp [strBytes, byteLen, List.length_flatten, List.map_map, Function.comp_def]

theorem strWidth_take_le (s : Str) (k : Nat) : strWidth (s.take k) ≤ strWidth s := by
  conv_rhs => rw [← List.take_append_drop k s]
  rw [strWidth_append]
  exact Nat.le_add_right _ _

theorem strWidth_drop_le (s : Str) (k : Nat) : strWidth (s.drop k) ≤ strWidth s := by
  conv_rhs => rw [← List.take_append_drop k s]
  rw [strWidth_append]
  exact Nat.le_add_left _ _

/-- Taking the bytes of the first `k` clusters is taking `byteLen (s.take k)`
bytes of the whole byte string. -/
theorem strBytes_split (s : Str) (k : Nat) :
    strBytes s = strBytes (s.take k) ++ strBytes (s.drop k) := by
  rw [← strBytes_append, List.take_append_drop]

theorem strBytes_take (s : Str) (k : Nat) :
    (strBytes s).take (byteLen (s.take k)) = strBytes (s.take k) := by
  rw [strBytes_split s k, ← length_strBytes]
  exact List.take_left _ _

/-- Dropping the bytes of the first `k` clusters leaves the bytes of the
remaining clusters. -/
theorem strBytes_drop (s : Str) (k : Nat) :
    (strBytes s).drop (byteLen (s.take k)) = strBytes (s.drop k) := by
  rw [strBytes_split s k, ← length_strBytes]
  exact List.drop_left _ _

/-- Case analysis for the `take_while(...).last()` pattern of the scans: the
kept element, when any, is some element of the list whose successor (when it
exists) fails the predicate. -/
theorem takeWhile_last_cases (p : Nat × Nat → Bool) :
    ∀ l : List (Nat × Nat),
      ((l.takeWhile p) = [] ∧ ∀ x ∈ l.take 1, p x = false)
      ∨ (∃ n, ∃ h : n < l.length, (l.takeWhile p).getLast? = some (l.get ⟨n, h⟩)
          ∧ p (l.get ⟨n, h⟩) = true
          ∧ ∀ h2 : n + 1 < l.length, p (l.get ⟨n + 1, h2⟩) = false) := by
  intro l
  induction l with
  | nil => exact Or.inl ⟨rfl, by simp⟩
  | cons a l ih =>
    cases hp : p a with
    | false =>
      refine Or.inl ⟨by simp [List.takeWhile_cons, hp], ?_⟩
      intro x hx
      simp only [List.take_succ_cons, List.take_zero, List.mem_singleton] at hx
      simpa [hx] using hp
    | true =>
      refine Or.inr ?_
      rcases ih with ⟨h1, h2⟩ | ⟨n, h, hlast, hpn, hnext⟩
      · refine ⟨0, by simp, ?_, by simpa using hp, ?_⟩
        · simp [List.takeWhile_cons, hp, h1]
        · intro h2'
          have hl : l ≠ [] := by
            intro he
            rw [he] at h2'
            simp at h2'
          obtain ⟨y, t, rfl⟩ := List.exists_cons_of_ne_nil hl
          simpa using h2 y (by simp)
      · have hne : l.takeWhile p ≠ [] := by
          intro he
          rw [he] at hlast
          simp at hlast
        obtain ⟨b, t, hbt⟩ := List.exists_cons_of_ne_nil hne
        refine ⟨n + 1, by simpa using h, ?_, by simpa using hpn, ?_⟩
        · rw [List.takeWhile_cons, hp]
          simp only [if_true, hbt, List.getLast?_cons_cons]
          rw [← hbt, hlast]
          simp
        · intro h2'
          simpa using hnext (by simpa using h2')

/-! ### Characterizing the scans over the grapheme stream -/

@[simp]
theorem mapWidths_nil : mapWidths [] = [] := rfl

@[simp]
theorem mapWidths_cons (p : Nat × Grapheme) (l : List (Nat × Grapheme)) :
    mapWidths (p :: l) = (p.1, p.2.width) :: mapWidths l := rfl

@[simp]
theorem scanWidthBefore_nil (a : Nat) : scanWidthBefore a [] = [] := rfl

@[simp]
theorem scanWidthIncluding_nil (a : Nat) : scanWidthIncluding a [] = [] := rfl

theorem scanWidthBefore_cons (a bi gw : Nat) (rest : List (Nat × Nat)) :
    scanWidthBefore a ((bi, gw) :: rest) = (bi, a) :: scanWidthBefore (a + gw) rest := by
  simp [scanWidthBefore, checked_add]

theorem scanWidthIncluding_cons (a bi gw : Nat) (rest : List (Nat × Nat)) :
    scanWidthIncluding a ((bi, gw) :: rest)
      = (bi, a + gw) :: scanWidthIncluding (a + gw) rest := by
  simp [scanWidthIncluding, checked_add]

theorem mapWidths_indices_snd_sum (s : Str) :
    ∀ off : Nat, ((mapWidths (graphemeIndicesFrom off s)).map Prod.snd).sum = strWidth s := by
  induction s with
  | nil => intro off; rfl
  | cons g gs ih => intro off; simp [graphemeIndicesFrom, ih]

/-- The chained and scanned iterator of `unicode_truncate` lists, for each
`k ≤ length`, the byte position of the cut after `k` clusters together with
the width of those `k` clusters. -/
theorem scanWidthBefore_spec (s : Str) :
    ∀ off a : Nat,
      scanWidthBefore a (mapWidths (graphemeIndicesFrom off s) ++ [(off + byteLen s, 0)])
        = (List.range (s.length + 1)).map
            (fun k => (off + byteLen (s.take k), a + strWidth (s.take k))) := by
  induction s with
  | nil =>
    intro off a
    simp [graphemeIndicesFrom, scanWidthBefore, checked_add, List.range_succ_eq_map]
  | cons g gs ih =>
    intro off a
    have h1 : off + byteLen (g :: gs) = off + g.bytes.length + byteLen gs := by
      rw [byteLen_cons]; omega
    rw [show graphemeIndicesFrom off (g :: gs)
          = (off, g) :: graphemeIndicesFrom (off + g.bytes.length) gs from rfl,
      mapWidths_cons, List.cons_append, scanWidthBefore_cons, h1,
      ih (off + g.bytes.length) (a + g.width)]
    conv_rhs =>
      rw [List.length_cons, List.range_succ_eq_map, List.map_cons, List.map_map]
    simp only [Function.comp_def, Nat.succ_eq_add_one, List.take_succ_cons,
      byteLen_cons, strWidth_cons, List.take_zero, byteLen_nil, strWidth_nil,
      Nat.add_zero]
    refine congrArg (fun t => (off, a) :: t) ?_
    refine List.map_congr_left ?_
    intro k _
    simp [Nat.add_assoc]

/-- The suffix scan distributes over append. -/
theorem scanWidthIncluding_append (l m : List (Nat × Nat)) :
    ∀ a, scanWidthIncluding a (l ++ m)
      = scanWidthIncluding a l ++ scanWidthIncluding (a + (l.map Prod.snd).sum) m := by
  induction l with
  | nil => intro a; simp
  | cons p l ih =>
    intro a
    obtain ⟨bi, gw⟩ := p
    rw [List.cons_append, scanWidthIncluding_cons, scanWidthIncluding_cons, ih]
    simp [Nat.add_assoc]

/-- The reversed scanned iterator of `unicode_truncate_start` lists, for each
position `j` (counting from the shortest suffix), the byte position of the
cut keeping the last clusters together with the width of the kept suffix. -/
theorem scanStartList_spec (s : Str) :
    ∀ off : Nat,
      scanWidthIncluding 0 (mapWidths (graphemeIndicesFrom off s)).reverse
        = (List.range s.length).map
            (fun j => (off + byteLen (s.take (s.length - 1 - j)),
                       strWidth (s.drop (s.length - 1 - j)))) := by
  induction s with
  | nil => intro off; simp [scanWidthIncluding]
  | cons g gs ih =>
    intro off
    rw [show graphemeIndicesFrom off (g :: gs)
          = (off, g) :: graphemeIndicesFrom (off + g.bytes.length) gs from rfl,
      mapWidths_cons, List.reverse_cons, scanWidthIncluding_append, ih]
    have hsum : (((mapWidths (graphemeIndicesFrom (off + g.bytes.length) gs)).reverse).map
        Prod.snd).sum = strWidth gs := by
      rw [List.map_reverse, List.sum_reverse]
      exact mapWidths_indices_snd_sum gs (off + g.bytes.length)
    rw [hsum]
    conv_rhs => rw [List.length_cons, List.range_succ, List.map_append]
    have hlast : scanWidthIncluding (0 + strWidth gs) [(off, g.width)]
        = [(off, strWidth (g :: gs))] := by
      rw [scanWidthIncluding_cons]
      simp [Nat.add_comm]
    rw [hlast]
    congr 1
    · refine List.map_congr_left ?_
      intro j hj
      rw [List.mem_range] at hj
      have h2 : gs.length + 1 - 1 - j = (gs.length - 1 - j) + 1 := by omega
      rw [h2, List.take_succ_cons, List.drop_succ_cons, byteLen_cons]
      simp [Nat.add_assoc]
    · have h3 : gs.length + 1 - 1 - gs.length = 0 := by omega
      rw [List.map_cons, h3]
      simp

/-! ### The chosen cut points, at grapheme granularity -/

/-- The cut chosen by `unicode_truncate` keeps exactly some `k` leading
clusters: their width fits the limit, and (unless everything is kept) adding
the next cluster would exceed it. -/
theorem truncEndIx_spec (s : Str) (w : Nat) :
    ∃ k, k ≤ s.length ∧ truncEndIx s w = (byteLen (s.take k), strWidth (s.take k))
      ∧ strWidth (s.take k) ≤ w
      ∧ (k < s.length → w < strWidth (s.take (k + 1))) := by
  have hscan : endScanList s
      = (List.range (s.length + 1)).map
          (fun k => (byteLen (s.take k), strWidth (s.take k))) := by
    simpa [endScanList, grapheme_indices] using scanWidthBefore_spec s 0 0
  rcases takeWhile_last_cases (fun p => decide (p.2 ≤ w))
      ((List.range (s.length + 1)).map
        (fun k => (byteLen (s.take k), strWidth (s.take k)))) with
    ⟨h1, h2⟩ | ⟨n, h, hlast, hpn, hnext⟩
  · exfalso
    have hmem : (byteLen (s.take 0), strWidth (s.take 0))
        ∈ (((List.range (s.length + 1)).map
            (fun k => (byteLen (s.take k), strWidth (s.take k)))).take 1) := by
      rw [List.range_succ_eq_map]
      simp
    have h3 := h2 _ hmem
    simp at h3
  · have hlen : n ≤ s.length := by
      simp only [List.length_map, List.length_range] at h
      omega
    have hget : ((List.range (s.length + 1)).map
          (fun k => (byteLen (s.take k), strWidth (s.take k)))).get ⟨n, h⟩
        = (byteLen (s.take n), strWidth (s.take n)) := by
      simp [List.get_eq_getElem]
    refine ⟨n, hlen, ?_, ?_, ?_⟩
    · simp only [truncEndIx, hscan, hlast, hget, Option.getD_some]
    · rw [hget] at hpn
      simpa using hpn
    · intro hk
      have h2' : n + 1 < ((List.range (s.length + 1)).map
          (fun k => (byteLen (s.take k), strWidth (s.take k)))).length := by
        simp only [List.length_map, List.length_range]
        omega
      have h4 := hnext h2'
      have hget2 : ((List.range (s.length + 1)).map
            (fun k => (byteLen (s.take k), strWidth (s.take k)))).get ⟨n + 1, h2'⟩
          = (byteLen (s.take (n + 1)), strWidth (s.take (n + 1))) := by
        simp [List.get_eq_getElem]
      rw [hget2] at h4
      simp only [decide_eq_false_iff_not, Nat.not_le] at h4
      exact h4

/-- The cut chosen by `unicode_truncate_start` drops exactly some `k` leading
clusters: the width of the kept suffix fits the limit, and (unless nothing is
dropped) un-dropping the last dropped cluster would exceed it. -/
theorem truncStartIx_spec (s : Str) (w : Nat) :
    ∃ k, k ≤ s.length ∧ truncStartIx s w = (byteLen (s.take k), strWidth (s.drop k))
      ∧ strWidth (s.drop k) ≤ w
      ∧ (0 < k → w < strWidth (s.drop (k - 1))) := by
  have hscan : scanWidthIncluding 0 (mapWidths (grapheme_indices s)).reverse
      = (List.range s.length).map
          (fun j => (byteLen (s.take (s.length - 1 - j)),
                     strWidth (s.drop (s.length - 1 - j)))) := by
    simpa [grapheme_indices] using scanStartList_spec s 0
  rcases takeWhile_last_cases (fun p => decide (p.2 ≤ w))
      ((List.range s.length).map
        (fun j => (byteLen (s.take (s.length - 1 - j)),
                   strWidth (s.drop (s.length - 1 - j))))) with
    ⟨h1, h2⟩ | ⟨n, h, hlast, hpn, hnext⟩
  · refine ⟨s.length, Nat.le_refl _, ?_, by simp, ?_⟩
    · simp only [truncStartIx, hscan, h1, List.getLast?_nil, Option.getD_none]
      simp
    · intro hk
      obtain ⟨m, hm⟩ : ∃ m, s.length = m + 1 := ⟨s.length - 1, by omega⟩
      have hmem : (byteLen (s.take (s.length - 1 - 0)), strWidth (s.drop (s.length - 1 - 0)))
          ∈ (((List.range s.length).map
              (fun j => (byteLen (s.take (s.length - 1 - j)),
                         strWidth (s.drop (s.length - 1 - j))))).take 1) := by
        rw [hm, List.range_succ_eq_map]
        simp
      have h3 := h2 _ hmem
      simp only [decide_eq_false_iff_not, Nat.not_le] at h3
      simpa using h3
  · have hn : n < s.length := by
      simp only [List.length_map, List.length_range] at h
      exact h
    have hget : ((List.range s.length).map
          (fun j => (byteLen (s.take (s.length - 1 - j)),
                     strWidth (s.drop (s.length - 1 - j))))).get ⟨n, h⟩
        = (byteLen (s.take (s.length - 1 - n)), strWidth (s.drop (s.length - 1 - n))) := by
      simp [List.get_eq_getElem]
    refine ⟨s.length - 1 - n, by omega, ?_, ?_, ?_⟩
    · simp only [truncStartIx, hscan, hlast, hget, Option.getD_some]
    · rw [hget] at hpn
      simpa using hpn
    · intro hk
      have h2' : n + 1 < ((List.range s.length).map
          (fun j => (byteLen (s.take (s.length - 1 - j)),
                     strWidth (s.drop (s.length - 1 - j))))).length := by
        simp only [List.length_map, List.length_range]
        omega
      have h4 := hnext h2'
      have hget2 : ((List.range s.length).map
            (fun j => (byteLen (s.take (s.length - 1 - j)),
                       strWidth (s.drop (s.length - 1 - j))))).get ⟨n + 1, h2'⟩
          = (byteLen (s.take (s.length - 1 - (n + 1))),
             strWidth (s.drop (s.length - 1 - (n + 1)))) := by
        simp [List.get_eq_getElem]
      rw [hget2] at h4
      simp only [decide_eq_false_iff_not, Nat.not_le] at h4
      have h5 : s.length - 1 - (n + 1) = s.length - 1 - n - 1 := by omega
      rw [h5] at h4
      exact h4

/-! ### Slice-level characterizations and identity laws -/

/-- `unicode_truncate` returns the bytes of some `k` leading clusters,
together with their exact width; that width fits the limit and is maximal in
the local sense that one more cluster would overflow. -/
theorem unicode_truncate_eq_take (s : Str) (w : Nat) :
    ∃ k, k ≤ s.length
      ∧ unicode_truncate s w = (strBytes (s.take k), strWidth (s.take k))
      ∧ strWidth (s.take k) ≤ w
      ∧ (k < s.length → w < strWidth (s.take (k + 1))) := by
  obtain ⟨k, hk, hix, hle, hmax⟩ := truncEndIx_spec s w
  refine ⟨k, hk, ?_, hle, hmax⟩
  simp only [unicode_truncate, hix, strBytes_take]

/-- `unicode_truncate_start` returns the bytes of some suffix obtained by
dropping `k` leading clusters, together with its exact width; that width fits
the limit and dropping one cluster fewer would overflow. -/
theorem unicode_truncate_start_eq_drop (s : Str) (w : Nat) :
    ∃ k, k ≤ s.length
      ∧ unicode_truncate_start s w = (strBytes (s.drop k), strWidth (s.drop k))
      ∧ strWidth (s.drop k) ≤ w
      ∧ (0 < k → w < strWidth (s.drop (k - 1))) := by
  obtain ⟨k, hk, hix, hle, hmax⟩ := truncStartIx_spec s w
  refine ⟨k, hk, ?_, hle, hmax⟩
  simp only [unicode_truncate_start, hix, strBytes_drop]

/-- Identity law for `unicode_truncate`: a string whose width already fits is
returned whole. -/
theorem unicode_truncate_of_le (s : Str) (w : Nat) (h : strWidth s ≤ w) :
    unicode_truncate s w = (strBytes s, strWidth s) := by
  obtain ⟨k, hk, heq, _, hmax⟩ := unicode_truncate_eq_take s w
  have hks : k = s.length := by
    by_contra hne
    have hlt : k < s.length := Nat.lt_of_le_of_ne hk hne
    have h2 := hmax hlt
    have h3 : strWidth (s.take (k + 1)) ≤ strWidth s := strWidth_take_le s (k + 1)
    omega
  rw [heq, hks, List.take_length]

/-- Identity law for `unicode_truncate_start`. -/
theorem unicode_truncate_start_of_le (s : Str) (w : Nat) (h : strWidth s ≤ w) :
    unicode_truncate_start s w = (strBytes s, strWidth s) := by
  obtain ⟨k, _, heq, _, hmax⟩ := unicode_truncate_start_eq_drop s w
  have hks : k = 0 := by
    by_contra hne
    have h2 := hmax (Nat.pos_of_ne_zero hne)
    have h3 : strWidth (s.drop (k - 1)) ≤ strWidth s := strWidth_drop_le s (k - 1)
    omega
  rw [heq, hks, List.drop_zero]

/-- The two early returns of `unicode_truncate_centered`: at limit 0 the
empty slice, otherwise a fitting string is returned whole. -/
theorem unicode_truncate_centered_of_le (s : Str) (w : Nat) (h : strWidth s ≤ w) :
    unicode_truncate_centered s w
      = some (if w = 0 then ([], 0) else (strBytes s, strWidth s)) := by
  by_cases hw : w = 0
  · simp [unicode_truncate_centered, hw]
  · simp [unicode_truncate_centered, hw, h]

/-- Any single cluster contributes no more than the whole width. -/
theorem width_le_of_mem (s : Str) (g : Grapheme) (h : g ∈ s) :
    g.width ≤ strWidth s :=
  List.single_le_sum (by simp) _ (List.mem_map_of_mem Grapheme.width h)

/-- The left and right pads always account exactly for the deficit. -/
theorem padSplit_sum (a : Alignment') (d : Nat) :
    (padSplit a d).1 + (padSplit a d).2 = d := by
  cases a
  · simp [padSplit]
  · simp only [padSplit]
    omega
  · simp [padSplit]

/-- With `truncate == true`, `unicode_pad` always builds its result from the
end-truncated slice, whatever the alignment, padding both sides according to
`padSplit`. -/
theorem unicode_pad_true_eq (s : Str) (w : Nat) (a : Alignment') :
    unicode_pad s w a true
      = List.replicate (padSplit a (w - (unicode_truncate s w).2)).1 32
        ++ (unicode_truncate s w).1
        ++ List.replicate (padSplit a (w - (unicode_truncate s w).2)).2 32 := by
  simp only [unicode_pad]
  rw [if_neg (by simp)]
  by_cases h : (unicode_truncate s w).2 = w
  · rw [if_pos h, h]
    cases a <;> simp [padSplit, Nat.sub_self]
  · rw [if_neg h]

/-! ### The claims -/

/-- Claim C1: for every string and limit, `unicode_truncate` and
`unicode_truncate_start` do return a pair `(slice, width)` whose reported
width is the exact display width of the slice and is at most the limit.
`unicode_truncate_centered`, however, does not always return a pair: on the
two-cluster string "a你" (widths 1 and 2) with `max_width = 2` the Rust
code reaches `self.get(1..0).unwrap()` and panics, which the model reports
as `none`. -/
theorem C1_width_bound :
    (∀ (s : Str) (w : Nat), ∃ k, k ≤ s.length
        ∧ unicode_truncate s w = (strBytes (s.take k), strWidth (s.take k))
        ∧ strWidth (s.take k) ≤ w)
    ∧ (∀ (s : Str) (w : Nat), ∃ k, k ≤ s.length
        ∧ unicode_truncate_start s w = (strBytes (s.drop k), strWidth (s.drop k))
        ∧ strWidth (s.drop k) ≤ w)
    ∧ unicode_truncate_centered [aG, niG] 2 = none := by
  refine ⟨?_, ?_, by rfl⟩
  · intro s w
    obtain ⟨k, hk, heq, hle, _⟩ := unicode_truncate_eq_take s w
    exact ⟨k, hk, heq, hle⟩
  · intro s w
    obtain ⟨k, hk, heq, hle, _⟩ := unicode_truncate_start_eq_drop s w
    exact ⟨k, hk, heq, hle⟩

/-- Claim C3: the slices returned by `unicode_truncate` and
`unicode_truncate_start` are always contiguous sub-ranges of the input cut at
grapheme-cluster boundaries (a prefix, respectively a suffix, of whole
clusters; a multi-codepoint cluster is never split).  But the claim also
covers the centered strategy, and on "a你" with `max_width = 2` the
centered truncation panics instead of returning any slice. -/
theorem C3_cluster_boundaries :
    (∀ (s : Str) (w : Nat), ∃ k, k ≤ s.length
        ∧ (unicode_truncate s w).1 = strBytes (s.take k))
    ∧ (∀ (s : Str) (w : Nat), ∃ k, k ≤ s.length
        ∧ (unicode_truncate_start s w).1 = strBytes (s.drop k))
    ∧ (unicode_truncate_centered [aG, niG] 2).isNone = true := by
  refine ⟨?_, ?_, by rfl⟩
  · intro s w
    obtain ⟨k, hk, heq, _, _⟩ := unicode_truncate_eq_take s w
    exact ⟨k, hk, by rw [heq]⟩
  · intro s w
    obtain ⟨k, hk, heq, _, _⟩ := unicode_truncate_start_eq_drop s w
    exact ⟨k, hk, by rw [heq]⟩

/-- Claim C8: the width accumulators of the three scans are indeed
overflow-checked, but the claim that the functions never abort is false:
`unicode_truncate_centered` panics on the string "a你" at `max_width = 2`
(its merge step selects `start_index = 1` and `end_index = 0`, so
`self.get(1..0).unwrap()` aborts), while the end and start truncations on the
same input return normally. -/
theorem C8_totality :
    unicode_truncate [aG, niG] 2 = (strBytes [aG], 1)
    ∧ unicode_truncate_start [aG, niG] 2 = (strBytes [niG], 2)
    ∧ unicode_truncate_centered [aG, niG] 2 = none := by
  refine ⟨by decide, by decide, by decide⟩

/-- Claim C4 counterexample: a non-empty string made of one zero-width
cluster (U+200B) has width `0 ≤ 0`, yet `unicode_truncate_centered` at
`max_width = 0` returns the empty slice rather than the string itself. -/
theorem C4_counterexample :
    strWidth [zwG] ≤ 0
    ∧ unicode_truncate_centered [zwG] 0 ≠ some (strBytes [zwG], strWidth [zwG]) := by
  decide

/-- Claim C4 (amended): the identity law holds unconditionally for
`unicode_truncate` and `unicode_truncate_start`; for
`unicode_truncate_centered` it holds whenever `max_width > 0`, while at
`max_width = 0` the centered strategy returns `("", 0)` even when a fitting
(necessarily zero-width) string could be returned whole. -/
theorem C4_identity (s : Str) (w : Nat) (h : strWidth s ≤ w) :
    unicode_truncate s w = (strBytes s, strWidth s)
    ∧ unicode_truncate_start s w = (strBytes s, strWidth s)
    ∧ unicode_truncate_centered s w
        = some (if w = 0 then ([], 0) else (strBytes s, strWidth s)) :=
  ⟨unicode_truncate_of_le s w h, unicode_truncate_start_of_le s w h,
    unicode_truncate_centered_of_le s w h⟩

/-- Witness for C4 at the string "a你" and limit 4. -/
theorem C4_identity_witness :
    unicode_truncate [aG, niG] 4 = (strBytes [aG, niG], strWidth [aG, niG])
    ∧ unicode_truncate_start [aG, niG] 4 = (strBytes [aG, niG], strWidth [aG, niG])
    ∧ unicode_truncate_centered [aG, niG] 4
        = some (if 4 = 0 then ([], 0) else (strBytes [aG, niG], strWidth [aG, niG])) :=
  C4_identity [aG, niG] 4 (by decide)

/-- Claim C5 counterexample: on the non-empty string holding a single U+200B cluster,
`unicode_truncate` at `max_width = 0` does not return the empty slice: it
returns the whole (zero-width) string. -/
theorem C5_counterexample :
    ([zwG] : Str) ≠ [] ∧ unicode_truncate [zwG] 0 ≠ ([], 0) := by
  decide

/-- Claim C5 (amended): at `max_width = 0` every strategy returns a slice of
width 0; the centered strategy always returns the empty slice, while the end
(resp. start) strategy returns the empty slice as soon as the first
(resp. last) cluster of the input has positive width — otherwise the slice
consists of the leading (resp. trailing) zero-width clusters.  The last two
conjuncts state the characterization exactly: the slice is the bytes of a
prefix (resp. suffix) of clusters that all have width 0, and the cluster just
past the cut, when one exists, has positive width — so the slice is precisely
the maximal zero-width prefix (resp. suffix), empty when the first
(resp. last) cluster is visible. -/
theorem C5_zero_width (s : Str) :
    (unicode_truncate s 0).2 = 0
    ∧ (unicode_truncate_start s 0).2 = 0
    ∧ unicode_truncate_centered s 0 = some ([], 0)
    ∧ (∀ g t, s = g :: t → 0 < g.width → (unicode_truncate s 0).1 = [])
    ∧ (∀ g, s.getLast? = some g → 0 < g.width → (unicode_truncate_start s 0).1 = [])
    ∧ (∃ k, k ≤ s.length ∧ (unicode_truncate s 0).1 = strBytes (s.take k)
        ∧ (∀ g ∈ s.take k, g.width = 0)
        ∧ (∀ g, s[k]? = some g → 0 < g.width))
    ∧ (∃ k, k ≤ s.length ∧ (unicode_truncate_start s 0).1 = strBytes (s.drop k)
        ∧ (∀ g ∈ s.drop k, g.width = 0)
        ∧ (∀ g, 0 < k → s[k - 1]? = some g → 0 < g.width)) := by
  obtain ⟨k1, hk1, heq1, hle1, hmax1⟩ := unicode_truncate_eq_take s 0
  obtain ⟨k2, hk2, heq2, hle2, hmax2⟩ := unicode_truncate_start_eq_drop s 0
  have hw1 : strWidth (s.take k1) = 0 := Nat.le_zero.mp hle1
  have hw2 : strWidth (s.drop k2) = 0 := Nat.le_zero.mp hle2
  refine ⟨by rw [heq1, hw1], by rw [heq2, hw2], by simp [unicode_truncate_centered],
    ?_, ?_, ?_, ?_⟩
  · intro g t hst hg
    have hk0 : k1 = 0 := by
      by_contra hne
      obtain ⟨k', rfl⟩ : ∃ k', k1 = k' + 1 := ⟨k1 - 1, by omega⟩
      rw [hst, List.take_succ_cons, strWidth_cons] at hw1
      omega
    rw [heq1, hk0]
    simp
  · intro g hg hgw
    have hkend : k2 = s.length := by
      by_contra hne
      have hlt : k2 < s.length := Nat.lt_of_le_of_ne hk2 hne
      have hne2 : s.drop k2 ≠ [] := by
        intro he
        have := congrArg List.length he
        simp only [List.length_drop, List.length_nil] at this
        omega
      have hgl : (s.drop k2).getLast? = some g := by
        conv at hg => rw [← List.take_append_drop k2 s]
        rwa [List.getLast?_append_of_ne_nil (s.take k2) hne2] at hg
      have hmem : g ∈ s.drop k2 := by
        obtain ⟨h9, hge⟩ := List.mem_getLast?_eq_getLast
          (show g ∈ (s.drop k2).getLast? by rw [Option.mem_def]; exact hgl)
        rw [hge]
        exact List.getLast_mem h9
      have := width_le_of_mem _ _ hmem
      omega
    rw [heq2, hkend]
    simp
  · refine ⟨k1, hk1, by rw [heq1], ?_, ?_⟩
    · intro g hgmem
      have h6 := width_le_of_mem _ _ hgmem
      omega
    · intro g hg
      have hlt : k1 < s.length := by
        by_contra hcon
        rw [List.getElem?_eq_none (by omega)] at hg
        exact absurd hg (by simp)
      have h2 := hmax1 hlt
      have h3 : s.take (k1 + 1) = s.take k1 ++ [g] := by
        rw [List.take_succ, hg]
        rfl
      rw [h3, strWidth_append] at h2
      have h4 : strWidth [g] = g.width := by simp
      rw [h4] at h2
      omega
  · refine ⟨k2, hk2, by rw [heq2], ?_, ?_⟩
    · intro g hgmem
      have h6 := width_le_of_mem _ _ hgmem
      omega
    · intro g hpos hg
      have h2 := hmax2 hpos
      have hlt : k2 - 1 < s.length := by
        by_contra hcon
        rw [List.getElem?_eq_none (by omega)] at hg
        exact absurd hg (by simp)
      have hgeq : s.get ⟨k2 - 1, hlt⟩ = g := by
        have h5 := List.getElem?_eq_getElem hlt
        rw [hg] at h5
        simpa [List.get_eq_getElem] using h5.symm
      have h3 : s.drop (k2 - 1) = g :: s.drop k2 := by
        rw [List.drop_eq_getElem_cons hlt]
        rw [show k2 - 1 + 1 = k2 from by omega]
        rw [← hgeq]
        simp [List.get_eq_getElem]
      rw [h3, strWidth_cons] at h2
      omega

/-- Witness for C5 at the single-cluster string "a". -/
theorem C5_zero_width_witness :
    (unicode_truncate [aG] 0).1 = [] ∧ (unicode_truncate_start [aG] 0).1 = [] :=
  ⟨(C5_zero_width [aG]).2.2.2.1 aG [] rfl (by decide),
    (C5_zero_width [aG]).2.2.2.2.1 aG (by rfl) (by decide)⟩

/-- Claim C6: whenever the two sides of the centered merge have removed equal
widths, the end side is advanced first; consequently "abcd" truncated
centered to 3 is "abc" and "boundaryboundary" truncated centered to 5 is
"arybo". -/
theorem C6_tie_break :
    (∀ (x y : Nat × Nat) (l r : List (Nat × Nat)), x.2 = y.2 →
        mergeJoinBy centeredMergePred (x :: l) (y :: r)
          = Sum.inr y :: mergeJoinBy centeredMergePred (x :: l) r)
    ∧ unicode_truncate_centered (asciiStr [97, 98, 99, 100]) 3
        = some ([97, 98, 99], 3)
    ∧ unicode_truncate_centered
        (asciiStr [98, 111, 117, 110, 100, 97, 114, 121,
                   98, 111, 117, 110, 100, 97, 114, 121]) 5
        = some ([97, 114, 121, 98, 111], 5) := by
  refine ⟨?_, by decide, by decide⟩
  · intro x y l r hxy
    have hpred : (!(centeredMergePred x y)) = true := by
      simp [centeredMergePred, hxy]
    conv_lhs => rw [mergeJoinBy]
    conv_rhs => rw [mergeJoinBy]
    rw [List.takeWhile_cons, List.dropWhile_cons, hpred]
    simp

/-- Witness for the tie-break rule of C6 on concrete merge inputs. -/
theorem C6_tie_break_witness :
    mergeJoinBy centeredMergePred [(0, 5)] [(9, 5)]
      = Sum.inr (9, 5) :: mergeJoinBy centeredMergePred [(0, 5)] [] :=
  C6_tie_break.1 (0, 5) (9, 5) [] [] rfl

/-- Claim C7 counterexample: in "abc" (an "a", a zero-width U+200B
cluster, then "bc") truncated from the start to width 2, the zero-width
cluster exposed at the new start of the slice is kept, not excluded. -/
theorem C7_counterexample :
    zwG.width = 0
    ∧ unicode_truncate_start [aG, zwG, bG, cG] 2
        = (zwG.bytes ++ (bG.bytes ++ (cG.bytes ++ [])), 2)
    ∧ (unicode_truncate_start [aG, zwG, bG, cG] 2).1 ≠ bG.bytes ++ (cG.bytes ++ []) := by
  decide

/-- Claim C7 (amended): zero-width units are attached symmetrically, not
asymmetrically: `unicode_truncate` never cuts just before a zero-width
cluster (the cluster after the cut, if any, has positive width), and
`unicode_truncate_start` likewise never cuts just after a zero-width cluster
(the last dropped cluster, if any, has positive width) — so both directions
keep zero-width units sitting at the cut inside the slice. -/
theorem C7_zero_width_attachment (s : Str) (w : Nat) :
    ∃ k1 k2,
      unicode_truncate s w = (strBytes (s.take k1), strWidth (s.take k1))
      ∧ (∀ g, s[k1]? = some g → 0 < g.width)
      ∧ unicode_truncate_start s w = (strBytes (s.drop k2), strWidth (s.drop k2))
      ∧ (∀ g, 0 < k2 → s[k2 - 1]? = some g → 0 < g.width) := by
  obtain ⟨k1, hk1, heq1, hle1, hmax1⟩ := unicode_truncate_eq_take s w
  obtain ⟨k2, hk2, heq2, hle2, hmax2⟩ := unicode_truncate_start_eq_drop s w
  refine ⟨k1, k2, heq1, ?_, heq2, ?_⟩
  · intro g hg
    have hlt : k1 < s.length := by
      by_contra hcon
      rw [List.getElem?_eq_none (by omega)] at hg
      exact absurd hg (by simp)
    have h2 := hmax1 hlt
    have h3 : s.take (k1 + 1) = s.take k1 ++ [g] := by
      rw [List.take_succ, hg]
      rfl
    rw [h3, strWidth_append] at h2
    have h4 : strWidth [g] = g.width := by simp
    rw [h4] at h2
    omega
  · intro g hpos hg
    have h2 := hmax2 hpos
    have hlt : k2 - 1 < s.length := by
      by_contra hcon
      rw [List.getElem?_eq_none (by omega)] at hg
      exact absurd hg (by simp)
    have hgeq : s.get ⟨k2 - 1, hlt⟩ = g := by
      have h5 := List.getElem?_eq_getElem hlt
      rw [hg] at h5
      simpa [List.get_eq_getElem] using h5.symm
    have h3 : s.drop (k2 - 1) = g :: s.drop k2 := by
      rw [List.drop_eq_getElem_cons hlt]
      rw [show k2 - 1 + 1 = k2 from by omega]
      rw [← hgeq]
      simp [List.get_eq_getElem]
    rw [h3, strWidth_cons] at h2
    omega

/-- Witness for C7 on the concrete string "abc" at width 2. -/
theorem C7_zero_width_attachment_witness :
    ∃ k1 k2,
      unicode_truncate [aG, zwG, bG, cG] 2
          = (strBytes (([aG, zwG, bG, cG] : Str).take k1),
             strWidth (([aG, zwG, bG, cG] : Str).take k1))
      ∧ (∀ g, ([aG, zwG, bG, cG] : Str)[k1]? = some g → 0 < g.width)
      ∧ unicode_truncate_start [aG, zwG, bG, cG] 2
          = (strBytes (([aG, zwG, bG, cG] : Str).drop k2),
             strWidth (([aG, zwG, bG, cG] : Str).drop k2))
      ∧ (∀ g, 0 < k2 → ([aG, zwG, bG, cG] : Str)[k2 - 1]? = some g → 0 < g.width) :=
  C7_zero_width_attachment [aG, zwG, bG, cG] 2

/-- Claim C2 counterexample: with `truncate == true`, Right alignment and
the wide string "你好吗" at target width 3, `unicode_pad` pads the
end-truncated slice "你", not the alignment-truncated slice "吗" that
`unicode_truncate_aligned` would produce. -/
theorem C2_counterexample :
    unicode_truncate_aligned niHaoMa 3 Alignment'.Right = some (maG.bytes, 2)
    ∧ unicode_pad niHaoMa 3 Alignment'.Right true = 32 :: niG.bytes
    ∧ (32 :: niG.bytes : List Nat) ≠ 32 :: maG.bytes := by
  decide

/-- Claim C2 (amended): with `truncate == true`, `unicode_pad` always
computes its slice with `unicode_truncate` (end truncation), whatever the
alignment; the alignment only decides where the padding spaces go. -/
theorem C2_pad_truncation_alignment (s : Str) (w : Nat) (a : Alignment') :
    unicode_pad s w a true
      = List.replicate (padSplit a (w - (unicode_truncate s w).2)).1 32
        ++ (unicode_truncate s w).1
        ++ List.replicate (padSplit a (w - (unicode_truncate s w).2)).2 32 :=
  unicode_pad_true_eq s w a

/-- Claim C9: with `truncate == true` the padded result has display width
exactly the target: it is the end-truncated slice (of width `c ≤ w`)
surrounded by spaces as `padSplit` dictates, and the pads plus the slice
width sum to the target. -/
theorem C9_padding_exactness (s : Str) (w : Nat) (a : Alignment') :
    ∃ k c, c = strWidth (s.take k) ∧ c ≤ w
      ∧ unicode_pad s w a true
        = List.replicate (padSplit a (w - c)).1 32 ++ strBytes (s.take k)
          ++ List.replicate (padSplit a (w - c)).2 32
      ∧ (padSplit a (w - c)).1 + c + (padSplit a (w - c)).2 = w := by
  obtain ⟨k, hk, heq, hle, _⟩ := unicode_truncate_eq_take s w
  refine ⟨k, strWidth (s.take k), rfl, hle, ?_, ?_⟩
  · rw [unicode_pad_true_eq, heq]
  · have h2 := padSplit_sum a (w - strWidth (s.take k))
    omega

/-- Claim C10: with `truncate == false` the input is never shortened: when
its width already reaches the target it is returned unchanged, otherwise it
is only surrounded by spaces up to the target, so the result width is
`max (width s) w`. -/
theorem C10_pad_no_truncation (s : Str) (w : Nat) (a : Alignment') :
    (unicode_pad s w a false
      = if w ≤ strWidth s then strBytes s
        else List.replicate (padSplit a (w - strWidth s)).1 32 ++ strBytes s
          ++ List.replicate (padSplit a (w - strWidth s)).2 32)
    ∧ ∃ lp rp, unicode_pad s w a false
        = List.replicate lp 32 ++ strBytes s ++ List.replicate rp 32
        ∧ lp + strWidth s + rp = max (strWidth s) w := by
  by_cases hw : w ≤ strWidth s
  · have hfirst : unicode_pad s w a false = strBytes s := by
      simp only [unicode_pad]
      rw [if_pos (And.intro (by simp) hw)]
    refine ⟨by rw [hfirst, if_pos hw], 0, 0, by simpa using hfirst, ?_⟩
    rw [Nat.max_eq_left hw]
    omega
  · push_neg at hw
    have hid : unicode_truncate s w = (strBytes s, strWidth s) :=
      unicode_truncate_of_le s w (Nat.le_of_lt hw)
    have hid1 : (unicode_truncate s w).1 = strBytes s := by rw [hid]
    have hid2 : (unicode_truncate s w).2 = strWidth s := by rw [hid]
    have hpad : unicode_pad s w a false
        = List.replicate (padSplit a (w - strWidth s)).1 32 ++ strBytes s
          ++ List.replicate (padSplit a (w - strWidth s)).2 32 := by
      simp only [unicode_pad, hid1, hid2]
      rw [if_neg (fun hcon => absurd hcon.2 (by omega))]
      rw [if_neg (by omega)]
    refine ⟨by rw [hpad, if_neg (by omega)],
      (padSplit a (w - strWidth s)).1, (padSplit a (w - strWidth s)).2, hpad, ?_⟩
    have h2 := padSplit_sum a (w - strWidth s)
    rw [Nat.max_eq_right (Nat.le_of_lt hw)]
    omega

/-! ### The embedding reproduces the library's own test suite
(`mod tests` of `src/lib.rs`), including every truncation example. -/

example : unicode_truncate niHaoMa 5 = (strBytes [niG, haoG], 4) := by decide
example : unicode_truncate [] 4 = ([], 0) := by decide
example : unicode_truncate (asciiStr [97, 98]) 0 = ([], 0) := by decide
example : unicode_truncate (asciiStr [97, 98, 99]) 4 = ([97, 98, 99], 3) := by decide
example : unicode_truncate (asciiStr ([98,111,117,110,100,97,114,121])) 5 = ([98,111,117,110,100], 5) := by decide
example : unicode_truncate niHaoMa 4 = (strBytes [niG, haoG], 4) := by decide
example : unicode_truncate niHaoMa 3 = (strBytes [niG], 2) := by decide
example : unicode_truncate niHaoMa 1 = ([], 0) := by decide
example : unicode_truncate [yBreveG, eG, sG] 2 = (strBytes [yBreveG, eG], 2) := by decide
example : unicode_truncate [yBreveG, eG, yBreveG, sG] 3 = (strBytes [yBreveG, eG, yBreveG], 3) := by decide
-- family_stays_together (end)
example : unicode_truncate famStr 4 = (strBytes [⟨[49],1⟩, ⟨[50],1⟩, ⟨[51],1⟩], 3) := by decide
example : unicode_truncate famStr 8 = (strBytes [⟨[49],1⟩, ⟨[50],1⟩, ⟨[51],1⟩], 3) := by decide
example : unicode_truncate famStr 12 = (strBytes [⟨[49],1⟩, ⟨[50],1⟩, ⟨[51],1⟩, famG, ⟨[52],1⟩], 12) := by decide
example : unicode_truncate famStr 20 = (strBytes famStr, 14) := by decide

example : unicode_truncate_start [] 4 = ([], 0) := by decide
example : unicode_truncate_start (asciiStr [97, 98]) 0 = ([], 0) := by decide
example : unicode_truncate_start (asciiStr [98,111,117,110,100,97,114,121]) 5 = ([110,100,97,114,121], 5) := by decide
example : unicode_truncate_start niHaoMa 4 = (strBytes [haoG, maG], 4) := by decide
example : unicode_truncate_start niHaoMa 3 = (strBytes [maG], 2) := by decide
example : unicode_truncate_start niHaoMa 1 = ([], 0) := by decide
example : unicode_truncate_start [yBreveG, eG, yBreveG, sG] 2 = (strBytes [yBreveG, sG], 2) := by decide
example : unicode_truncate_start [yBreveG, eG, sG] 2 = (strBytes [eG, sG], 2) := by decide
example : unicode_truncate_start famStr 4 = (strBytes [⟨[52],1⟩, ⟨[53],1⟩, ⟨[54],1⟩], 3) := by decide
example : unicode_truncate_start famStr 12 = ((strBytes [⟨[51],1⟩, famG, ⟨[52],1⟩, ⟨[53],1⟩, ⟨[54],1⟩]), 12) := by decide
example : unicode_truncate_start famStr 20 = (strBytes famStr, 14) := by decide

example : unicode_truncate_centered [] 4 = some ([], 0) := by decide
example : unicode_truncate_centered (asciiStr [97,98]) 0 = some ([], 0) := by decide
example : unicode_truncate_centered (asciiStr [97,98,99]) 4 = some ([97,98,99], 3) := by decide
example : unicode_truncate_centered (asciiStr [97,98,99,100]) 3 = some ([97,98,99], 3) := by decide
example : unicode_truncate_centered (asciiStr [98,111,117,110,100,97,114,121,98,111,117,110,100,97,114,121]) 5 = some ([97,114,121,98,111], 5) := by decide
example : unicode_truncate_centered [niG,haoG,maG,niG,haoG,maG,niG,haoG,maG] 4 = some (strBytes [niG, haoG], 4) := by decide
example : unicode_truncate_centered [niG,haoG,maG,niG,haoG,maG] 3 = some (strBytes [maG], 2) := by decide
example : unicode_truncate_centered [niG,haoG,maG,niG,haoG,maG] 1 = some ([], 0) := by decide
-- zero_width_char_in_middle (centered): "yy̆es" truncated to 2 is "y̆e"
example : unicode_truncate_centered [⟨[121],1⟩, yBreveG, eG, sG] 2 = some (strBytes [yBreveG, eG], 2) := by decide
-- zero_width_char_at_boundary (centered)
example : unicode_truncate_centered [yBreveG, eG, aBreveG, bBreveG, yBreveG, eG, aBreveG, bBreveG] 2 = some (strBytes [bBreveG, yBreveG], 2) := by decide
example : unicode_truncate_centered [aG, yBreveG, eG, aBreveG, bBreveG, yBreveG, eG, aBreveG, bBreveG] 2 = some (strBytes [aBreveG, bBreveG], 2) := by decide
example : unicode_truncate_centered [yBreveG, eG, aBreveG, bBreveG, yBreveG, eG, aBreveG, bBreveG, aG] 2 = some (strBytes [bBreveG, yBreveG], 2) := by decide
-- family_stays_together (centered)
example : unicode_truncate_centered famStr 4 = some ([], 0) := by decide
example : unicode_truncate_centered famStr 8 = some (strBytes [famG], 8) := by decide
example : unicode_truncate_centered famStr 12 = some (strBytes [⟨[50],1⟩, ⟨[51],1⟩, famG, ⟨[52],1⟩, ⟨[53],1⟩], 12) := by decide
example : unicode_truncate_centered famStr 20 = some (strBytes famStr, 14) := by decide

-- truncate_aligned
example : unicode_truncate_aligned (asciiStr [97,98,99]) 1 Alignment'.Left = some ([97], 1) := by decide
example : unicode_truncate_aligned (asciiStr [97,98,99]) 1 Alignment'.Center = some ([98], 1) := by decide
example : unicode_truncate_aligned (asciiStr [97,98,99]) 1 Alignment'.Right = some ([99], 1) := by decide

-- pad
example : unicode_pad [niG, haoG] 0 Alignment'.Left true = [] := by decide
example : unicode_pad [niG, haoG] 0 Alignment'.Left false = strBytes [niG, haoG] := by decide
example : unicode_pad [niG] 4 Alignment'.Left true = (strBytes [niG] ++ [32, 32]) := by decide
example : unicode_pad [niG] 4 Alignment'.Left false = (strBytes [niG] ++ [32, 32]) := by decide
example : unicode_pad niHaoMa 4 Alignment'.Left true = strBytes [niG, haoG] := by decide
example : unicode_pad niHaoMa 4 Alignment'.Left false = strBytes niHaoMa := by decide
example : unicode_pad niHaoMa 3 Alignment'.Left true = (strBytes [niG] ++ [32]) := by decide
example : unicode_pad niHaoMa 1 Alignment'.Left true = [32] := by decide
example : unicode_pad niHaoMa 3 Alignment'.Left false = strBytes niHaoMa := by decide
example : unicode_pad niHaoMa 3 Alignment'.Center true = (strBytes [niG] ++ [32]) := by decide
example : unicode_pad niHaoMa 3 Alignment'.Right true = ([32] ++ strBytes [niG]) := by decide

-- the suspected panic: "a你" centered to width 2
-- zero-width findings
